import Mathlib

/-!
Verification development for the Async Swiss Chess Tournament Manager.

The definitions below are a shallow embedding of the repository's two
computation modules:

* `main.py` — player ledger (`build_player_state`), pairing engine
  (`create_pairing_graph`, `can_pair`, `calculate_weight`, `assign_colors`,
  `greedy_matching`, `generate_pairings`), board allocator
  (`get_board_usage_count`, `assign_board_numbers`) and the two-criterion
  standings calculator (`calculate_standings`).
* `calc_tiebreaker.py` — result normalisation (`clean_result`) and the
  four-criterion standings calculator (`Tb.calculate_standings`).

Python floats carrying chess scores are modelled as rationals (`ℚ`); all
scores the program manipulates are small multiples of 1/2, where float
arithmetic is exact.  Python dicts are modelled as insertion-ordered
association lists whose update functions rewrite the first matching key,
exactly like a dict with unique keys.  Python's stable `sort`
(and pandas' stable lexicographic `sort_values`) is modelled by
`List.mergeSort`, which is stable.  `str.strip` / `str.lower` are modelled
on the character list (`pyStrip` / `pyLower`).
-/

/-- Color of the pieces a player had in a finished game (`main.py` stores
the strings "White"/"Black"). -/
inductive Color
  | White
  | Black
deriving DecidableEq, Repr

/-- Per-player ledger record built by `build_player_state` (`main.py`
lines 41-48).  `colorHistory` is the one field not stored by `main.py`. -/
structure PlayerState where
  name : String
  points : ℚ
  gamesPlayed : Nat
  lastColor : Option Color
  /-- Modelled from the spec: `main.py` keeps only `last_color`, while the
  spec's data model also lists `colorHistory: ordered sequence of
  {White,Black} — append-only, one entry per finished game`.  The field
  records, as a ghost observer, the color written to `last_color` at each
  finished game, in order; no other definition reads it. -/
  colorHistory : List Color
  /-- `opponents` is a Python set; only membership is ever queried, so it is
  modelled as a duplicate-free insertion list. -/
  opponents : List Int
  opponentScores : List ℚ
  currentlyPlaying : Bool
deriving DecidableEq, Repr

/-- A row of the Pairings sheet (`main.py`).  `board = none` models a
missing/`"?"`/empty/unparseable Board cell (all skipped by
`get_board_usage_count`); a result of `none` models a NaN cell, so the game
is finished iff both results are `some`. -/
structure Pairing where
  round : Int
  board : Option Int
  whitePlayer : Int
  blackPlayer : Int
  resultsWhite : Option ℚ
  resultsBlack : Option ℚ
deriving DecidableEq, Repr

/-- A row of the Attendees sheet, after `main.py`'s per-row validation. -/
structure Attendee where
  id : Int
  firstName : String
  lastName : String
deriving DecidableEq, Repr

/-- The `player_state` dict: insertion-ordered, keys unique by
construction. -/
abbrev SMap := List (Int × PlayerState)

/-- Dict read: first entry with the given key. -/
def lookupPS (m : SMap) (k : Int) : Option PlayerState :=
  (m.find? (fun kv => kv.1 = k)).map (fun kv => kv.2)

/-- Dict write `player_state[k] = f(player_state[k])`: rewrite the first
entry holding key `k`. -/
def setPS : SMap → Int → (PlayerState → PlayerState) → SMap
  | [], _, _ => []
  | kv :: m, k, f => if kv.1 = k then (kv.1, f kv.2) :: m else kv :: setPS m k f

/-- Dict write `player_state[k] = v`: replace in place or append. -/
def insertPS : SMap → Int → PlayerState → SMap
  | [], k, v => [(k, v)]
  | kv :: m, k, v => if kv.1 = k then (k, v) :: m else kv :: insertPS m k v

/-- Python `set.add`. -/
def addMem (l : List Int) (x : Int) : List Int :=
  if x ∈ l then l else l ++ [x]

/-- Fresh state for an attendee row (`main.py` lines 41-48). -/
def initPlayer (a : Attendee) : PlayerState :=
  { name := a.firstName ++ " " ++ a.lastName
    points := 0
    gamesPlayed := 0
    lastColor := none
    colorHistory := []
    opponents := []
    opponentScores := []
    currentlyPlaying := false }

/-- One iteration of the pairing loop of `build_player_state`
(`main.py` lines 59-105), with every dict mutation in source order. -/
def processPairing (m : SMap) (p : Pairing) : SMap :=
  if (lookupPS m p.whitePlayer).isSome ∧ (lookupPS m p.blackPlayer).isSome then
    -- Mark opponents (lines 80-81)
    let m1 := setPS m p.whitePlayer
      (fun s => { s with opponents := addMem s.opponents p.blackPlayer })
    let m2 := setPS m1 p.blackPlayer
      (fun s => { s with opponents := addMem s.opponents p.whitePlayer })
    match p.resultsWhite, p.resultsBlack with
    | some rw, some rb =>
      -- Update points (lines 85-86)
      let m3 := setPS m2 p.whitePlayer (fun s => { s with points := s.points + rw })
      let m4 := setPS m3 p.blackPlayer (fun s => { s with points := s.points + rb })
      -- Update games played (lines 89-90)
      let m5 := setPS m4 p.whitePlayer (fun s => { s with gamesPlayed := s.gamesPlayed + 1 })
      let m6 := setPS m5 p.blackPlayer (fun s => { s with gamesPlayed := s.gamesPlayed + 1 })
      -- Update last color (lines 93-94); the ghost colorHistory records it
      let m7 := setPS m6 p.whitePlayer (fun s =>
        { s with lastColor := some Color.White
                 colorHistory := s.colorHistory ++ [Color.White] })
      let m8 := setPS m7 p.blackPlayer (fun s =>
        { s with lastColor := some Color.Black
                 colorHistory := s.colorHistory ++ [Color.Black] })
      -- Store opponent scores for Buchholz (lines 97-98): each side appends
      -- the OTHER side's points as they stand at this moment
      let bpts := ((lookupPS m8 p.blackPlayer).map (fun s => s.points)).getD 0
      let m9 := setPS m8 p.whitePlayer
        (fun s => { s with opponentScores := s.opponentScores ++ [bpts] })
      let wpts := ((lookupPS m9 p.whitePlayer).map (fun s => s.points)).getD 0
      setPS m9 p.blackPlayer
        (fun s => { s with opponentScores := s.opponentScores ++ [wpts] })
    | _, _ =>
      -- Game in progress (lines 101-102)
      let m3 := setPS m2 p.whitePlayer (fun s => { s with currentlyPlaying := true })
      setPS m3 p.blackPlayer (fun s => { s with currentlyPlaying := true })
  else m

/-- `build_player_state` (`main.py` lines 33-109). -/
def build_player_state (attendees : List Attendee) (pairings : List Pairing) : SMap :=
  pairings.foldl processPairing
    (attendees.foldl (fun m a => insertPS m a.id (initPlayer a)) [])

/-- `get_waiting_players` (`main.py` lines 220-226). -/
def get_waiting_players (m : SMap) : List Int :=
  (m.filter (fun kv => !kv.2.currentlyPlaying)).map (fun kv => kv.1)

/-- Read a player's state the way `main.py` indexes `player_state[id]`
(all call sites guarantee the key is present). -/
def getPS (m : SMap) (k : Int) : PlayerState :=
  (lookupPS m k).getD (initPlayer ⟨0, "", ""⟩)

/-- `can_pair` (`main.py` lines 280-306). -/
def can_pair (ps : SMap) (a b : Int) (same_group : Bool) : Bool :=
  let sa := getPS ps a
  let sb := getPS ps b
  -- Rule 1: No rematches
  if b ∈ sa.opponents then false
  -- Rule 2: Cross-group restrictions
  else if !same_group && (((sa.gamesPlayed : Int) - (sb.gamesPlayed : Int)).natAbs > 1) then
    false
  else
    -- Rule 3: Strict color alternation
    match sa.lastColor, sb.lastColor with
    | none, none => true
    | none, some _ => true
    | some _, none => true
    | some ca, some cb => ca ≠ cb

/-- `calculate_weight` (`main.py` lines 308-322). -/
def calculate_weight (ps : SMap) (a b : Int) (same_group : Bool) : ℚ :=
  let sa := getPS ps a
  let sb := getPS ps b
  if same_group then 10000
  else 100 - 50 * |sa.points - sb.points|
    - 500 * (((sa.gamesPlayed : Int) - (sb.gamesPlayed : Int)).natAbs : ℚ)

/-- A player's `(games_played, points)` bucket key. -/
def bucketOf (ps : SMap) (a : Int) : Nat × ℚ :=
  ((getPS ps a).gamesPlayed, (getPS ps a).points)

/-- Python dict-of-lists update `groups.setdefault(key, []).append(pid)`. -/
def addToGroups : List ((Nat × ℚ) × List Int) → (Nat × ℚ) → Int →
    List ((Nat × ℚ) × List Int)
  | [], k, pid => [(k, [pid])]
  | g :: gs, k, pid =>
    if g.1 = k then (g.1, g.2 ++ [pid]) :: gs else g :: addToGroups gs k pid

/-- The `groups` dict of `create_pairing_graph` (`main.py` lines 237-243). -/
def buildGroups (waiting : List Int) (ps : SMap) : List ((Nat × ℚ) × List Int) :=
  waiting.foldl (fun gs pid => addToGroups gs (bucketOf ps pid) pid) []

/-- All ordered pairs `(l[i], l[j])` with `i < j`, in the nested-loop order
`for i, a in enumerate(l): for b in l[i+1:]`. -/
def listPairs {α : Type} : List α → List (α × α)
  | [] => []
  | x :: xs => xs.map (fun y => (x, y)) ++ listPairs xs

/-- First pass of `create_pairing_graph` (`main.py` lines 251-258):
same-group edges. -/
def sameGroupEdges (ps : SMap) (groups : List ((Nat × ℚ) × List Int)) :
    List (Int × Int × ℚ) :=
  groups.flatMap (fun g =>
    (listPairs g.2).filterMap (fun ab =>
      if can_pair ps ab.1 ab.2 true then
        some (ab.1, ab.2, calculate_weight ps ab.1 ab.2 true)
      else none))

/-- The singleton scan of `create_pairing_graph` (`main.py` lines 263-266). -/
def singletonPlayers (groups : List ((Nat × ℚ) × List Int)) : List Int :=
  groups.filterMap (fun g => match g.2 with | [x] => some x | _ => none)

/-- Second pass of `create_pairing_graph` (`main.py` lines 268-275):
cross-group edges between singleton buckets. -/
def crossGroupEdges (ps : SMap) (groups : List ((Nat × ℚ) × List Int)) :
    List (Int × Int × ℚ) :=
  let sp := singletonPlayers groups
  if sp.length ≥ 2 then
    (listPairs sp).filterMap (fun ab =>
      if can_pair ps ab.1 ab.2 false then
        some (ab.1, ab.2, calculate_weight ps ab.1 ab.2 false)
      else none)
  else []

/-- `create_pairing_graph` (`main.py` lines 228-278), as its edge list;
the node set plays no role in any claim. -/
def create_pairing_graph (waiting : List Int) (ps : SMap) : List (Int × Int × ℚ) :=
  let groups := buildGroups waiting ps
  sameGroupEdges ps groups ++ crossGroupEdges ps groups

/-- `assign_colors` (`main.py` lines 324-341).  `coin` models
`random.choice([True, False])`. -/
def assign_colors (ps : SMap) (a b : Int) (coin : Bool) : Int × Int :=
  match (getPS ps a).lastColor, (getPS ps b).lastColor with
  | none, none => if coin then (a, b) else (b, a)
  | none, some cb => if cb = Color.White then (a, b) else (b, a)
  | some ca, none => if ca = Color.White then (b, a) else (a, b)
  | some ca, some _ => if ca = Color.White then (b, a) else (a, b)

/-- Edge comparison used by `greedy_matching`'s
`edges.sort(key=lambda x: x[2], reverse=True)`: weight descending; the
stable sort keeps input order on weight ties. -/
def weightGE (e f : Int × Int × ℚ) : Bool := decide (f.2.2 ≤ e.2.2)

/-- The selection loop of `greedy_matching` (`main.py` lines 348-356). -/
def greedyScan : List (Int × Int × ℚ) → List Int → List (Int × Int)
  | [], _ => []
  | (u, v, _) :: rest, matched =>
    if u ∉ matched ∧ v ∉ matched then
      (u, v) :: greedyScan rest (u :: v :: matched)
    else greedyScan rest matched

/-- `greedy_matching` (`main.py` lines 343-357); the unused `player_state`
argument is dropped, and the networkx graph is passed as its weighted edge
list in insertion order. -/
def greedy_matching (edges : List (Int × Int × ℚ)) : List (Int × Int) :=
  greedyScan (edges.mergeSort weightGE) []

/-- Board value carried by a generated pairing: unset until the allocator
runs, then a board number or the sentinel `"?"`. -/
inductive BoardVal
  | unset
  | num (n : Int)
  | question
deriving DecidableEq, Repr

/-- A pairing produced by `generate_pairings` (`main.py` lines 397-401). -/
structure NewPairing where
  round : Int
  whitePlayer : Int
  blackPlayer : Int
  board : BoardVal
deriving DecidableEq, Repr

/-- Pair-to-record step of `generate_pairings` (`main.py` lines 392-404). -/
def pairingOfMatch (ps : SMap) (coin : Int → Int → Bool) (e : Int × Int) :
    NewPairing :=
  let wb := assign_colors ps e.1 e.2 (coin e.1 e.2)
  { round := (max (getPS ps wb.1).gamesPlayed (getPS ps wb.2).gamesPlayed : Nat) + 1
    whitePlayer := wb.1
    blackPlayer := wb.2
    board := BoardVal.unset }

/-- `generate_pairings` (`main.py` lines 359-416).  `matcher` abstracts
`nx.max_weight_matching` with `greedy_matching` as fallback — both return a
set of endpoint pairs drawn from the graph's edges, in either orientation —
and `coin` abstracts `random.choice` inside `assign_colors`. -/
def generate_pairings (ps : SMap)
    (matcher : List (Int × Int × ℚ) → List (Int × Int))
    (coin : Int → Int → Bool) : List NewPairing :=
  let waiting := get_waiting_players ps
  if waiting.length < 2 then []
  else
    let G := create_pairing_graph waiting ps
    if G.length = 0 then []
    else (matcher G).map (pairingOfMatch ps coin)

/-- `MAX_BOARDS` (`main.py` line 9). -/
def MAX_BOARDS : Nat := 17

/-- Python `board_usage` dict bump. -/
def bumpUsage : List (Int × Nat) → Int → List (Int × Nat)
  | [], b => [(b, 1)]
  | kv :: u, b => if kv.1 = b then (kv.1, kv.2 + 1) :: u else kv :: bumpUsage u b

/-- `get_board_usage_count` (`main.py` lines 111-137): pending games per
valid board number. -/
def get_board_usage_count (existing : List Pairing) : List (Int × Nat) :=
  existing.foldl (fun u p =>
    match p.resultsWhite, p.resultsBlack with
    | some _, some _ => u
    | _, _ =>
      match p.board with
      | none => u
      | some b => bumpUsage u b) []

/-- `board_usage.get(board_num, 0)`. -/
def usageOf (u : List (Int × Nat)) (b : Int) : Nat :=
  ((u.find? (fun kv => kv.1 = b)).map (fun kv => kv.2)).getD 0

/-- Boards `1..MAX_BOARDS` with a given usage count, ascending
(`main.py` lines 161-168). -/
def boardsWithUsage (u : List (Int × Nat)) (n : Nat) : List Int :=
  ((List.range MAX_BOARDS).map (fun i : Nat => (i : Int) + 1)).filter
    (fun b => usageOf u b = n)

/-- The three assignment loops of `assign_board_numbers`
(`main.py` lines 186-211), fused into one pass: each pairing in sorted
order takes the next empty board while one exists, then the next
single-game board, then the sentinel `"?"`. -/
def assignLoop : List NewPairing → List Int → List Int → List NewPairing
  | [], _, _ => []
  | p :: ps, b :: bs0, bs1 => { p with board := BoardVal.num b } :: assignLoop ps bs0 bs1
  | p :: ps, [], b :: bs1 => { p with board := BoardVal.num b } :: assignLoop ps [] bs1
  | p :: ps, [], [] => { p with board := BoardVal.question } :: assignLoop ps [] []

/-- Sort key of `sorted(new_pairings, key=lambda x: x["Round"])`. -/
def roundLE (a b : NewPairing) : Bool := decide (a.round ≤ b.round)

/-- `assign_board_numbers` (`main.py` lines 139-218). -/
def assign_board_numbers (new_pairings : List NewPairing)
    (existing_pairings : List Pairing) : List NewPairing :=
  if new_pairings = [] then []
  else
    let board_usage := get_board_usage_count existing_pairings
    let boards_with_0 := boardsWithUsage board_usage 0
    let boards_with_1 := boardsWithUsage board_usage 1
    let sorted_pairings := new_pairings.mergeSort roundLE
    assignLoop sorted_pairings boards_with_0 boards_with_1

/-- A row of `main.py`'s standings output (lines 458-464 plus `Pos`). -/
structure StandingRow where
  playerName : String
  pt : ℚ
  bucT : ℚ
  de : ℚ
  ber : ℚ
  pos : Nat
deriving DecidableEq, Repr

/-- Lexicographic order on `(points, BucT)` keys. -/
def lex2LE (x y : ℚ × ℚ) : Prop :=
  x.1 < y.1 ∨ (x.1 = y.1 ∧ x.2 ≤ y.2)

instance (x y : ℚ × ℚ) : Decidable (lex2LE x y) := by
  unfold lex2LE; infer_instance

/-- Sort comparison of `standings.sort(key=lambda x: (x["Pt"], x["BucT"]),
reverse=True)`: key descending, stable on ties. -/
def standingGE (a b : StandingRow) : Bool :=
  decide (lex2LE (b.pt, b.bucT) (a.pt, a.bucT))

/-- `for i, standing in enumerate(standings): standing["Pos"] = i + 1`. -/
def numberRows (i : Nat) : List StandingRow → List StandingRow
  | [] => []
  | r :: rs => { r with pos := i + 1 } :: numberRows (i + 1) rs

/-- `calculate_standings` (`main.py` lines 451-471). -/
def calculate_standings (m : SMap) : List StandingRow :=
  let standings := m.map (fun kv =>
    { playerName := kv.2.name
      pt := kv.2.points
      bucT := kv.2.opponentScores.sum
      de := 0
      ber := 0
      pos := 0 : StandingRow })
  numberRows 0 (standings.mergeSort standingGE)

/-! ### `calc_tiebreaker.py` -/

/-- Python `str.strip()` on the character list. -/
def pyStrip (s : String) : String :=
  ⟨((s.data.dropWhile Char.isWhitespace).reverse.dropWhile Char.isWhitespace).reverse⟩

/-- Python `str.lower()` on the character list (names here are ASCII). -/
def pyLower (s : String) : String :=
  ⟨s.data.map Char.toLower⟩

/-- `clean_result` (`calc_tiebreaker.py` lines 5-25).  `pf` abstracts
Python's `float(str)` conversion: `some q` when the string parses, `none`
for the `ValueError` branch. -/
def clean_result (pf : String → Option ℚ) (val : String) : ℚ :=
  let v := pyStrip val
  if v = "1" ∨ v = "1.0" ∨ v = "+" then 1
  else if v = "0" ∨ v = "0.0" ∨ v = "-" then 0
  else if v = "1/2" ∨ v = "0.5" ∨ v = "½" then 1/2
  else if pyLower v = "bye" then 1
  else match pf v with
    | some q => q
    | none => 0

/-- The per-name record of `calc_tiebreaker.py`'s `players` dict
(line 65). -/
structure CPlayer where
  points : ℚ
  opponents : List String
  game_history : List (String × ℚ)
deriving DecidableEq, Repr

/-- The `players` dict: insertion-ordered association list keyed by
name. -/
abbrev CMap := List (String × CPlayer)

def lookupCP (m : CMap) (k : String) : Option CPlayer :=
  (m.find? (fun kv => kv.1 = k)).map (fun kv => kv.2)

def setCP : CMap → String → (CPlayer → CPlayer) → CMap
  | [], _, _ => []
  | kv :: m, k, f => if kv.1 = k then (kv.1, f kv.2) :: m else kv :: setCP m k f

/-- A game row of the input sheet; only the four columns the computation
reads are modelled (`Round`/`Board` are checked for presence but never
used). -/
structure TRow where
  whiteName : String
  blackName : String
  resultsWhite : String
  resultsBlack : String
deriving DecidableEq, Repr

/-- One iteration of the first pass of `calculate_standings`
(`calc_tiebreaker.py` lines 52-79): points, opponent lists and game
history. -/
def processRow (pf : String → Option ℚ) (m : CMap) (row : TRow) : CMap :=
  let white := pyStrip row.whiteName
  let black := pyStrip row.blackName
  -- Skip empty rows
  if white = "" ∧ black = "" then m
  else
    let res_w := clean_result pf row.resultsWhite
    let res_b := clean_result pf row.resultsBlack
    -- Initialize players if not exists
    let m1 := if (lookupCP m white).isSome then m else m ++ [(white, ⟨0, [], []⟩)]
    let m2 := if (lookupCP m1 black).isSome ∨ pyLower black = "bye" then m1
      else m1 ++ [(black, ⟨0, [], []⟩)]
    -- Update White
    let m3 := setCP m2 white (fun s => { s with points := s.points + res_w })
    let m4 := if pyLower black ≠ "bye" ∧ black ≠ "nan" then
        setCP m3 white (fun s =>
          { s with opponents := s.opponents ++ [black]
                   game_history := s.game_history ++ [(black, res_w)] })
      else m3
    -- Update Black
    if pyLower black ≠ "bye" ∧ black ≠ "nan" then
      setCP m4 black (fun s =>
        { s with points := s.points + res_b
                 opponents := s.opponents ++ [white]
                 game_history := s.game_history ++ [(white, res_b)] })
    else m4

/-- The completed first pass: the `players` dict after all rows. -/
def buildPlayers (pf : String → Option ℚ) (rows : List TRow) : CMap :=
  rows.foldl (processRow pf) []

/-- Second pass, per player (`calc_tiebreaker.py` lines 84-91): resolve
each opponent name to that opponent's points in the completed table, `0.0`
for a name absent from it. -/
def oppScores (m : CMap) (p : CPlayer) : List ℚ :=
  p.opponents.map (fun o =>
    match lookupCP m o with
    | some q => q.points
    | none => 0)

/-- `BucT` (`calc_tiebreaker.py` line 94). -/
def bucTOf (m : CMap) (p : CPlayer) : ℚ := (oppScores m p).sum

/-- Ascending comparison for Python `sorted` on scores. -/
def ratLE (a b : ℚ) : Bool := decide (a ≤ b)

/-- `Buc1` (`calc_tiebreaker.py` lines 96-100): ascending sort, drop the
first (lowest) element; `0.0` with no opponents. -/
def buc1Of (m : CMap) (p : CPlayer) : ℚ :=
  let os := oppScores m p
  if 0 < os.length then (((os.mergeSort ratLE).drop 1)).sum else 0

/-- Third pass (`calc_tiebreaker.py` lines 109-115): names currently tied
at a given point total, in insertion order. -/
def tiedNames (m : CMap) (pts : ℚ) : List String :=
  (m.filter (fun kv => kv.2.points = pts)).map (fun kv => kv.1)

/-- `DE` (`calc_tiebreaker.py` lines 117-128): sum of recorded results
against opponents tied on points with this player. -/
def deOf (m : CMap) (p : CPlayer) : ℚ :=
  (p.game_history.foldl (fun acc gr =>
    if gr.1 ∈ tiedNames m p.points then acc + gr.2 else acc) 0)

/-- A row of the final standings table (`calc_tiebreaker.py`
lines 133-152). -/
structure TStanding where
  rank : Nat
  name : String
  points : ℚ
  de : ℚ
  buc1 : ℚ
  bucT : ℚ
deriving DecidableEq, Repr

/-- Lexicographic order on `(Points, DE, Buc1, BucT)` keys. -/
def lex4LE (x y : ℚ × ℚ × ℚ × ℚ) : Prop :=
  x.1 < y.1 ∨ (x.1 = y.1 ∧
    (x.2.1 < y.2.1 ∨ (x.2.1 = y.2.1 ∧
      (x.2.2.1 < y.2.2.1 ∨ (x.2.2.1 = y.2.2.1 ∧ x.2.2.2 ≤ y.2.2.2)))))

instance (x y : ℚ × ℚ × ℚ × ℚ) : Decidable (lex4LE x y) := by
  unfold lex4LE; infer_instance

/-- Sort key of the standings row, `(Points, DE, Buc1, BucT)`. -/
def tKey (r : TStanding) : ℚ × ℚ × ℚ × ℚ := (r.points, r.de, r.buc1, r.bucT)

/-- `final_df.sort_values(by=[Points, DE, Buc1, BucT], ascending=False)`:
key descending, stable on full ties (numpy lexsort is stable). -/
def tStandingGE (a b : TStanding) : Bool := decide (lex4LE (tKey b) (tKey a))

/-- `final_df.insert(0, 'Rank', range(1, 1 + len(final_df)))`. -/
def numberTb (i : Nat) : List TStanding → List TStanding
  | [] => []
  | r :: rs => { r with rank := i + 1 } :: numberTb (i + 1) rs

namespace Tb

/-- `calculate_standings` (`calc_tiebreaker.py` lines 27-157), from the
parsed game rows to the ranked table; file I/O and the column-presence
check are outside the model. -/
def calculate_standings (pf : String → Option ℚ) (rows : List TRow) :
    List TStanding :=
  let players := buildPlayers pf rows
  let results := players.map (fun kv =>
    { rank := 0
      name := kv.1
      points := kv.2.points
      de := deOf players kv.2
      buc1 := buc1Of players kv.2
      bucT := bucTOf players kv.2 : TStanding })
  numberTb 0 (results.mergeSort tStandingGE)

end Tb

/-! ### Association-list (dict) lemmas -/

theorem lookupPS_setPS (m : SMap) (k x : Int) (f : PlayerState → PlayerState) :
    lookupPS (setPS m k f) x =
      if x = k then (lookupPS m k).map f else lookupPS m x := by
  induction m with
  | nil =>
    simp only [setPS, lookupPS, List.find?, Option.map_none']
    split <;> rfl
  | cons kv m ih =>
    simp only [setPS]
    by_cases hk : kv.1 = k
    · rw [if_pos hk]
      by_cases hx : kv.1 = x
      · have hxk : x = k := hx ▸ hk
        simp [lookupPS, List.find?, hx, hxk, hk]
      · have hxk : ¬ x = k := fun h => hx (h ▸ hk)
        simp [lookupPS, List.find?, hx, hxk]
    · rw [if_neg hk]
      by_cases hx : kv.1 = x
      · have hxk : ¬ x = k := fun h => hk (hx.trans h)
        simp [lookupPS, List.find?, hx, hxk]
      · simp only [lookupPS, List.find?] at ih ⊢
        simp [hx, hk, ih]

theorem lookupPS_insertPS (m : SMap) (k x : Int) (v : PlayerState) :
    lookupPS (insertPS m k v) x =
      if x = k then some v else lookupPS m x := by
  induction m with
  | nil =>
    simp only [insertPS, lookupPS, List.find?]
    by_cases hx : x = k
    · subst hx; simp
    · have : ¬ k = x := fun h => hx h.symm
      simp [this, hx]
  | cons kv m ih =>
    simp only [insertPS]
    by_cases hk : kv.1 = k
    · rw [if_pos hk]
      by_cases hx : x = k
      · subst hx; simp [lookupPS, List.find?]
      · have hkx : ¬ k = x := fun h => hx h.symm
        have hkvx : ¬ kv.1 = x := fun h => hx ((h.symm.trans hk).symm ▸ rfl)
        simp [lookupPS, List.find?, hkx, hkvx, hx, hk]
    · rw [if_neg hk]
      by_cases hx : kv.1 = x
      · have hxk : ¬ x = k := fun h => hk (hx.trans h)
        simp [lookupPS, List.find?, hx, hxk]
      · simp only [lookupPS, List.find?] at ih ⊢
        simp [hx, hk, ih]

/-! ### Claim C5: ledger length invariant -/

/-- The invariant of spec §3 on one player record. -/
def ledgerInv (s : PlayerState) : Prop :=
  s.gamesPlayed = s.colorHistory.length ∧ s.gamesPlayed = s.opponentScores.length

theorem processPairing_inv (m : SMap) (p : Pairing)
    (h : ∀ k s, lookupPS m k = some s → ledgerInv s) :
    ∀ k s, lookupPS (processPairing m p) k = some s → ledgerInv s := by
  obtain ⟨rnd, brd, w, b, rw?, rb?⟩ := p
  intro k s hs
  unfold processPairing at hs
  simp only at hs
  by_cases hg : (lookupPS m w).isSome ∧ (lookupPS m b).isSome
  case neg => rw [if_neg hg] at hs; exact h k s hs
  rw [if_pos hg] at hs
  rcases rw? with _ | rw0 <;> rcases rb? with _ | rb0 <;> simp only at hs <;>
  · by_cases hkw : k = w <;> by_cases hkb : k = b <;> by_cases hwb : w = b <;>
    · repeat
        first
          | rw [lookupPS_setPS, if_pos hkw] at hs
          | rw [lookupPS_setPS, if_pos hkb] at hs
          | rw [lookupPS_setPS, if_neg hkw] at hs
          | rw [lookupPS_setPS, if_neg hkb] at hs
          | rw [lookupPS_setPS, if_pos rfl] at hs
          | rw [lookupPS_setPS, if_pos hwb] at hs
          | rw [lookupPS_setPS, if_neg hwb] at hs
          | rw [lookupPS_setPS, if_pos hwb.symm] at hs
          | rw [lookupPS_setPS, if_neg (fun hh => hwb hh.symm)] at hs
      first
        | exact h k s hs
        | (simp only [Option.map_map, Option.map_eq_some'] at hs
           obtain ⟨s0, hs0, hco⟩ := hs
           have hinv := h _ s0 hs0
           subst hco
           simp only [ledgerInv, Function.comp, List.length_append,
             List.length_cons, List.length_nil] at hinv ⊢
           omega)

theorem build_player_state_inv (attendees : List Attendee) (pairings : List Pairing) :
    ∀ k s, lookupPS (build_player_state attendees pairings) k = some s → ledgerInv s := by
  have hinit : ∀ (l : List Attendee) (m0 : SMap),
      (∀ k s, lookupPS m0 k = some s → ledgerInv s) →
      ∀ k s, lookupPS (l.foldl (fun m a => insertPS m a.id (initPlayer a)) m0) k = some s →
        ledgerInv s := by
    intro l
    induction l with
    | nil => intro m0 h; exact h
    | cons a l ih =>
      intro m0 h
      refine ih _ ?_
      intro k s hs
      rw [lookupPS_insertPS] at hs
      split_ifs at hs
      · cases hs; exact ⟨rfl, rfl⟩
      · exact h k s hs
  have hfold : ∀ (l : List Pairing) (m0 : SMap),
      (∀ k s, lookupPS m0 k = some s → ledgerInv s) →
      ∀ k s, lookupPS (l.foldl processPairing m0) k = some s → ledgerInv s := by
    intro l
    induction l with
    | nil => intro m0 h; exact h
    | cons p l ih =>
      intro m0 h
      exact ih _ (processPairing_inv m0 p h)
  exact hfold pairings _ (hinit attendees [] (by intro k s hs; simp [lookupPS] at hs))

/-- Claim C5: for every roster and pairing history, every player record the
ledger produces satisfies `gamesPlayed = |colorHistory| = |opponentScores|`:
each finished game appends one color and one opponent score while adding one
to `gamesPlayed`, and pending games change none of the three. -/
theorem ledger_counts_agree (attendees : List Attendee) (pairings : List Pairing)
    (k : Int) (s : PlayerState)
    (h : lookupPS (build_player_state attendees pairings) k = some s) :
    s.gamesPlayed = s.colorHistory.length ∧
    s.gamesPlayed = s.opponentScores.length :=
  build_player_state_inv attendees pairings k s h

/-- Roster and one finished game used as concrete sanity input. -/
def exAttendees : List Attendee := [⟨1, "A", "B"⟩, ⟨2, "C", "D"⟩]

def exPairings : List Pairing := [⟨1, none, 1, 2, some 1, some 0⟩]

unseal Rat.add Rat.mul Rat.sub Rat.inv Nat.gcd in
theorem ledger_counts_agree_witness :
    (⟨"A B", 1, 1, some Color.White, [Color.White], [2], [0], false⟩ :
        PlayerState).gamesPlayed =
      [Color.White].length ∧
    (⟨"A B", 1, 1, some Color.White, [Color.White], [2], [0], false⟩ :
        PlayerState).gamesPlayed = [(0 : ℚ)].length :=
  ledger_counts_agree exAttendees exPairings 1 _ (by decide)

/-! ### Claim C1: opponent scores are running totals in `main.py`,
final totals in `calc_tiebreaker.py` -/

/-- Roster of three and two sequential decisive games: player 1 beats 2,
then 2 beats 3, so player 2 finishes on 1.0 point. -/
def c1Attendees : List Attendee := [⟨1, "P", "One"⟩, ⟨2, "P", "Two"⟩, ⟨3, "P", "Three"⟩]

def c1Pairings : List Pairing :=
  [⟨1, none, 1, 2, some 1, some 0⟩, ⟨2, none, 2, 3, some 1, some 0⟩]

unseal Rat.add Rat.mul Rat.sub Rat.inv Nat.gcd in
/-- Claim C1 counterexample: in `build_player_state` the single
`opponentScores` entry of player 1 is `0`, the running total of opponent 2
when their game was processed, while opponent 2's final points total is
`1`; so the entry is not the opponent's final total as the claim states. -/
theorem build_player_state_running_totals :
    (getPS (build_player_state c1Attendees c1Pairings) 1).opponents = [2] ∧
    (getPS (build_player_state c1Attendees c1Pairings) 1).opponentScores = [0] ∧
    (getPS (build_player_state c1Attendees c1Pairings) 2).points = 1 ∧
    ((0 : ℚ) ≠ 1) := by
  refine ⟨by decide, by decide, by decide, by decide⟩

/-- Claim C1 (amended): only `calc_tiebreaker.py`'s two-pass
`calculate_standings` resolves each staged opponent to that opponent's
final points total — entry `i` of a player's opponent-score list is the
points the completed first-pass table assigns to opponent `i`;
`build_player_state` instead records the opponent's running total at the
moment the finished game is processed. -/
theorem tb_oppScores_final_totals (pf : String → Option ℚ) (rows : List TRow)
    (name : String) (p : CPlayer)
    (_hp : lookupCP (buildPlayers pf rows) name = some p)
    (i : Nat) (o : String) (ho : p.opponents[i]? = some o)
    (q : CPlayer) (hq : lookupCP (buildPlayers pf rows) o = some q) :
    (oppScores (buildPlayers pf rows) p)[i]? = some q.points := by
  simp [oppScores, List.getElem?_map, ho, hq]

def pfNone : String → Option ℚ := fun _ => none

def c1Rows : List TRow := [⟨"A", "B", "1", "0"⟩]

unseal Rat.add Rat.mul Rat.sub Rat.inv Nat.gcd in
theorem tb_oppScores_final_totals_witness :
    (oppScores (buildPlayers pfNone c1Rows) ⟨1, ["B"], [("B", 1)]⟩)[0]? =
      some (⟨0, ["A"], [("A", 0)]⟩ : CPlayer).points :=
  tb_oppScores_final_totals pfNone c1Rows "A" _ (by decide) 0 "B" (by decide)
    _ (by decide)

/-! ### Claim C9: `clean_result` case analysis and totality -/

/-- Claim C9: `clean_result` is total — it is a Lean function, and every
input falls into exactly one branch: the fixed literals `'1'/'1.0'/'+'`,
`'0'/'0.0'/'-'`, `'1/2'/'0.5'/'½'`, any casing of `'bye'`, a string the
float parser accepts, or the catch-all `0.0` for the `ValueError` branch —
it never raises. -/
theorem clean_result_cases (pf : String → Option ℚ) (s : String) :
    (pyStrip s = "1" ∨ pyStrip s = "1.0" ∨ pyStrip s = "+" →
      clean_result pf s = 1) ∧
    (pyStrip s = "0" ∨ pyStrip s = "0.0" ∨ pyStrip s = "-" →
      clean_result pf s = 0) ∧
    (pyStrip s = "1/2" ∨ pyStrip s = "0.5" ∨ pyStrip s = "½" →
      clean_result pf s = 1/2) ∧
    (pyLower (pyStrip s) = "bye" → clean_result pf s = 1) ∧
    (∀ q : ℚ,
      ¬(pyStrip s = "1" ∨ pyStrip s = "1.0" ∨ pyStrip s = "+") →
      ¬(pyStrip s = "0" ∨ pyStrip s = "0.0" ∨ pyStrip s = "-") →
      ¬(pyStrip s = "1/2" ∨ pyStrip s = "0.5" ∨ pyStrip s = "½") →
      pyLower (pyStrip s) ≠ "bye" →
      pf (pyStrip s) = some q → clean_result pf s = q) ∧
    (¬(pyStrip s = "1" ∨ pyStrip s = "1.0" ∨ pyStrip s = "+") →
      ¬(pyStrip s = "0" ∨ pyStrip s = "0.0" ∨ pyStrip s = "-") →
      ¬(pyStrip s = "1/2" ∨ pyStrip s = "0.5" ∨ pyStrip s = "½") →
      pyLower (pyStrip s) ≠ "bye" →
      pf (pyStrip s) = none → clean_result pf s = 0) := by
  refine ⟨?_, ?_, ?_, ?_, ?_, ?_⟩
  · intro h
    simp only [clean_result]
    rw [if_pos h]
  · intro h
    have h1 : ¬(pyStrip s = "1" ∨ pyStrip s = "1.0" ∨ pyStrip s = "+") := by
      rcases h with h | h | h <;> rw [h] <;> decide
    simp only [clean_result]
    rw [if_neg h1, if_pos h]
  · intro h
    have h1 : ¬(pyStrip s = "1" ∨ pyStrip s = "1.0" ∨ pyStrip s = "+") := by
      rcases h with h | h | h <;> rw [h] <;> decide
    have h2 : ¬(pyStrip s = "0" ∨ pyStrip s = "0.0" ∨ pyStrip s = "-") := by
      rcases h with h | h | h <;> rw [h] <;> decide
    simp only [clean_result]
    rw [if_neg h1, if_neg h2, if_pos h]
  · intro h
    have h1 : ¬(pyStrip s = "1" ∨ pyStrip s = "1.0" ∨ pyStrip s = "+") := by
      rintro (h' | h' | h') <;> rw [h'] at h <;> exact absurd h (by decide)
    have h2 : ¬(pyStrip s = "0" ∨ pyStrip s = "0.0" ∨ pyStrip s = "-") := by
      rintro (h' | h' | h') <;> rw [h'] at h <;> exact absurd h (by decide)
    have h3 : ¬(pyStrip s = "1/2" ∨ pyStrip s = "0.5" ∨ pyStrip s = "½") := by
      rintro (h' | h' | h') <;> rw [h'] at h <;> exact absurd h (by decide)
    simp only [clean_result]
    rw [if_neg h1, if_neg h2, if_neg h3, if_pos h]
  · intro q h1 h2 h3 h4 hq
    simp only [clean_result]
    rw [if_neg h1, if_neg h2, if_neg h3, if_neg h4, hq]
  · intro h1 h2 h3 h4 hq
    simp only [clean_result]
    rw [if_neg h1, if_neg h2, if_neg h3, if_neg h4, hq]

def pfDemo : String → Option ℚ := fun v => if v = "2.5" then some (5/2) else none

unseal Rat.add Rat.mul Rat.sub Rat.inv Nat.gcd in
theorem clean_result_cases_witness :
    clean_result pfDemo " BYE " = 1 ∧
    clean_result pfDemo "2.5" = 5/2 ∧
    clean_result pfDemo "junk" = 0 :=
  ⟨(clean_result_cases pfDemo " BYE ").2.2.2.1 (by decide),
   (clean_result_cases pfDemo "2.5").2.2.2.2.1 (5/2) (by decide) (by decide)
     (by decide) (by decide) (by decide),
   (clean_result_cases pfDemo "junk").2.2.2.2.2 (by decide) (by decide)
     (by decide) (by decide) (by decide)⟩

/-! ### Claim C7: Buc1 drops exactly one lowest opponent score -/

theorem ratLE_trans : ∀ a b c : ℚ, ratLE a b → ratLE b c → ratLE a c := by
  intro a b c hab hbc
  simp only [ratLE, decide_eq_true_eq] at *
  exact le_trans hab hbc

theorem ratLE_total : ∀ a b : ℚ, ratLE a b || ratLE b a := by
  intro a b
  simp only [ratLE, Bool.or_eq_true, decide_eq_true_eq]
  exact le_total a b

/-- Claim C7: a player's `Buc1` is the sum of the opponent-score list after
sorting ascending and dropping the first element; it equals `BucT` minus a
lowest opponent score when the player has opponents, and `0` otherwise. -/
theorem buc1_drops_lowest (m : CMap) (p : CPlayer) :
    (p.opponents = [] → buc1Of m p = 0) ∧
    (p.opponents ≠ [] → ∃ x ∈ oppScores m p,
      (∀ y ∈ oppScores m p, x ≤ y) ∧ buc1Of m p = bucTOf m p - x) := by
  constructor
  · intro h
    simp [buc1Of, oppScores, h]
  · intro h
    have hne : oppScores m p ≠ [] := by
      simp only [oppScores, ne_eq, List.map_eq_nil_iff]
      exact h
    have hperm : List.Perm ((oppScores m p).mergeSort ratLE) (oppScores m p) :=
      List.mergeSort_perm (oppScores m p) ratLE
    have hsorted := List.sorted_mergeSort ratLE_trans ratLE_total (oppScores m p)
    rcases hms : (oppScores m p).mergeSort ratLE with _ | ⟨hd, tl⟩
    · rw [hms] at hperm
      exact absurd (List.Perm.nil_eq hperm).symm hne
    · rw [hms] at hperm hsorted
      refine ⟨hd, hperm.mem_iff.mp (by simp), ?_, ?_⟩
      · intro y hy
        rcases List.mem_cons.mp (hperm.mem_iff.mpr hy) with h' | h'
        · simp_all
        · have := (List.pairwise_cons.mp hsorted).1 y (by simpa using h')
          simpa [ratLE] using this
      · have hlen : 0 < (oppScores m p).length := List.length_pos.mpr hne
        have hsum : hd + tl.sum = bucTOf m p := by
          have := hperm.sum_eq
          simpa [bucTOf, List.sum_cons] using this
        simp only [buc1Of, if_pos hlen, hms, List.drop_one, List.tail_cons]
        linarith

def c7Map : CMap := [("a", ⟨1, [], []⟩), ("b", ⟨3, [], []⟩)]

def c7P : CPlayer := ⟨0, ["a", "b"], []⟩

unseal Rat.add Rat.mul Rat.sub Rat.inv Nat.gcd in
theorem buc1_drops_lowest_witness :
    ∃ x ∈ oppScores c7Map c7P,
      (∀ y ∈ oppScores c7Map c7P, x ≤ y) ∧
      buc1Of c7Map c7P = bucTOf c7Map c7P - x :=
  (buc1_drops_lowest c7Map c7P).2 (by decide)

/-! ### Claims C3 and C10: board allocator -/

/-- The board the fused assignment loop hands to the `i`-th sorted pairing:
the `i`-th empty board, then the `(i - |empty|)`-th single-game board, then
the sentinel. -/
def boardAt (b0 b1 : List Int) (i : Nat) : BoardVal :=
  if i < b0.length then BoardVal.num (b0.getD i 0)
  else if i < b0.length + b1.length then BoardVal.num (b1.getD (i - b0.length) 0)
  else BoardVal.question

theorem boardAt_cons0 (b : Int) (bs0 b1 : List Int) (i : Nat) :
    boardAt (b :: bs0) b1 (i + 1) = boardAt bs0 b1 i := by
  simp only [boardAt, List.length_cons, List.getD_cons_succ]
  by_cases h1 : i < bs0.length
  · rw [if_pos (by omega), if_pos h1]
  · rw [if_neg (by omega), if_neg h1]
    by_cases h2 : i < bs0.length + b1.length
    · rw [if_pos (by omega), if_pos h2]
      have hidx : i + 1 - (bs0.length + 1) = i - bs0.length := by omega
      rw [hidx]
    · rw [if_neg (by omega), if_neg h2]

theorem boardAt_cons1 (b : Int) (bs1 : List Int) (i : Nat) :
    boardAt [] (b :: bs1) (i + 1) = boardAt [] bs1 i := by
  simp only [boardAt, List.length_nil, List.length_cons, Nat.zero_add,
    Nat.not_lt_zero, if_false, Nat.sub_zero, List.getD_cons_succ]
  by_cases h2 : i < bs1.length
  · rw [if_pos (by omega), if_pos h2]
  · rw [if_neg (by omega), if_neg h2]

theorem assignLoop_getElem? (ps : List NewPairing) (b0 b1 : List Int) (i : Nat) :
    (assignLoop ps b0 b1)[i]? =
      ps[i]?.map (fun p => { p with board := boardAt b0 b1 i }) := by
  induction ps generalizing b0 b1 i with
  | nil => simp [assignLoop]
  | cons p ps ih =>
    rcases b0 with _ | ⟨b, bs0⟩
    · rcases b1 with _ | ⟨b, bs1⟩
      · rcases i with _ | i
        · simp [assignLoop, boardAt]
        · simp only [assignLoop, List.getElem?_cons_succ, ih]
          have : boardAt [] [] (i + 1) = boardAt [] [] i := by simp [boardAt]
          rw [this]
      · rcases i with _ | i
        · simp [assignLoop, boardAt]
        · simp only [assignLoop, List.getElem?_cons_succ, ih, boardAt_cons1]
    · rcases i with _ | i
      · simp [assignLoop, boardAt]
      · simp only [assignLoop, List.getElem?_cons_succ, ih, boardAt_cons0]

theorem assignLoop_length (ps : List NewPairing) (b0 b1 : List Int) :
    (assignLoop ps b0 b1).length = ps.length := by
  induction ps generalizing b0 b1 with
  | nil => simp [assignLoop]
  | cons p ps ih =>
    rcases b0 with _ | ⟨b, bs0⟩
    · rcases b1 with _ | ⟨b, bs1⟩ <;> simp [assignLoop, ih]
    · simp [assignLoop, ih]

/-- The non-board fields of a generated pairing. -/
def stripBoard (p : NewPairing) : Int × Int × Int :=
  (p.round, p.whitePlayer, p.blackPlayer)

theorem assignLoop_map_strip (ps : List NewPairing) (b0 b1 : List Int) :
    (assignLoop ps b0 b1).map stripBoard = ps.map stripBoard := by
  induction ps generalizing b0 b1 with
  | nil => simp [assignLoop]
  | cons p ps ih =>
    rcases b0 with _ | ⟨b, bs0⟩
    · rcases b1 with _ | ⟨b, bs1⟩ <;> simp [assignLoop, ih, stripBoard]
    · simp [assignLoop, ih, stripBoard]

theorem assignLoop_boards (ps : List NewPairing) (b0 b1 : List Int) :
    ∀ q ∈ assignLoop ps b0 b1,
      q.board = BoardVal.question ∨
        ∃ n, (n ∈ b0 ∨ n ∈ b1) ∧ q.board = BoardVal.num n := by
  induction ps generalizing b0 b1 with
  | nil => simp [assignLoop]
  | cons p ps ih =>
    rcases b0 with _ | ⟨b, bs0⟩
    · rcases b1 with _ | ⟨b, bs1⟩
      · intro q hq
        rcases List.mem_cons.mp hq with h | h
        · subst h; left; rfl
        · exact ih [] [] q h
      · intro q hq
        rcases List.mem_cons.mp hq with h | h
        · subst h; right; exact ⟨b, Or.inr (by simp), rfl⟩
        · rcases ih [] bs1 q h with h' | ⟨n, hn, h'⟩
          · exact Or.inl h'
          · exact Or.inr ⟨n, by simp at hn ⊢; tauto, h'⟩
    · intro q hq
      rcases List.mem_cons.mp hq with h | h
      · subst h; right; exact ⟨b, Or.inl (by simp), rfl⟩
      · rcases ih bs0 b1 q h with h' | ⟨n, hn, h'⟩
        · exact Or.inl h'
        · exact Or.inr ⟨n, by simp at hn ⊢; tauto, h'⟩

theorem assignLoop_mem_strip (ps : List NewPairing) (b0 b1 : List Int) :
    ∀ q ∈ assignLoop ps b0 b1, ∃ p ∈ ps, stripBoard q = stripBoard p := by
  intro q hq
  have hmap := assignLoop_map_strip ps b0 b1
  have : stripBoard q ∈ (assignLoop ps b0 b1).map stripBoard :=
    List.mem_map_of_mem stripBoard hq
  rw [hmap] at this
  obtain ⟨p, hp, hpq⟩ := List.mem_map.mp this
  exact ⟨p, hp, hpq.symm⟩

theorem assignLoop_pairwise_round (ps : List NewPairing) (b0 b1 : List Int)
    (h : ps.Pairwise fun a b => a.round ≤ b.round) :
    (assignLoop ps b0 b1).Pairwise fun a b => a.round ≤ b.round := by
  induction ps generalizing b0 b1 with
  | nil => simp [assignLoop]
  | cons p ps ih =>
    obtain ⟨hhead, htail⟩ := List.pairwise_cons.mp h
    have hmem : ∀ b0' b1' : List Int, ∀ q ∈ assignLoop ps b0' b1', p.round ≤ q.round := by
      intro b0' b1' q hq
      obtain ⟨p', hp', hstrip⟩ := assignLoop_mem_strip ps b0' b1' q hq
      have : q.round = p'.round := congrArg Prod.fst hstrip
      rw [this]
      exact hhead p' hp'
    rcases b0 with _ | ⟨b, bs0⟩
    · rcases b1 with _ | ⟨b, bs1⟩
      · exact List.pairwise_cons.mpr ⟨hmem [] [], ih [] [] htail⟩
      · exact List.pairwise_cons.mpr ⟨hmem [] bs1, ih [] bs1 htail⟩
    · exact List.pairwise_cons.mpr ⟨hmem bs0 b1, ih bs0 b1 htail⟩

theorem roundLE_trans : ∀ a b c : NewPairing, roundLE a b → roundLE b c → roundLE a c := by
  intro a b c hab hbc
  simp only [roundLE, decide_eq_true_eq] at *
  exact le_trans hab hbc

theorem roundLE_total : ∀ a b : NewPairing, roundLE a b || roundLE b a := by
  intro a b
  simp only [roundLE, Bool.or_eq_true, decide_eq_true_eq]
  exact le_total a.round b.round

theorem boardsWithUsage_mem (u : List (Int × Nat)) (n : Nat) (b : Int) :
    b ∈ boardsWithUsage u n ↔ 1 ≤ b ∧ b ≤ 17 ∧ usageOf u b = n := by
  unfold boardsWithUsage MAX_BOARDS
  simp only [List.mem_filter, List.mem_map, List.mem_range, decide_eq_true_eq]
  constructor
  · rintro ⟨⟨i, hi, rfl⟩, hu⟩
    refine ⟨by omega, by omega, hu⟩
  · rintro ⟨h1, h2, hu⟩
    refine ⟨⟨(b - 1).toNat, by omega, by omega⟩, hu⟩

theorem boardsWithUsage_sorted (u : List (Int × Nat)) (n : Nat) :
    (boardsWithUsage u n).Pairwise (· < ·) := by
  apply List.Pairwise.sublist (List.filter_sublist _)
  refine (List.pairwise_lt_range MAX_BOARDS).map (fun i : Nat => (i : Int) + 1) ?_
  intro a b hab
  have hab' : a < b := hab
  show (a : Int) + 1 < (b : Int) + 1
  omega

/-- The board value the allocator hands to position `i` given the pending
games of `existing`. -/
def assignedBoard (existing : List Pairing) (i : Nat) : BoardVal :=
  boardAt (boardsWithUsage (get_board_usage_count existing) 0)
    (boardsWithUsage (get_board_usage_count existing) 1) i

/-- Claim C3 (amended): `assign_board_numbers` processes new pairings in
ascending round order and always succeeds, but prioritises boards by
occupancy class, not by bare board number: the `i`-th sorted pairing takes
the `i`-th *empty* board (lowest numbers first) while any empty board
remains, only then the next board holding exactly one pending game (lowest
numbers first), and the sentinel `"?"` once no board has fewer than two
pending games. -/
theorem assign_board_numbers_assignment (new : List NewPairing)
    (existing : List Pairing) (h : new ≠ []) :
    ((assign_board_numbers new existing).Pairwise fun a b => a.round ≤ b.round) ∧
    (assign_board_numbers new existing).length = new.length ∧
    (∀ b : Int, b ∈ boardsWithUsage (get_board_usage_count existing) 0 ↔
      1 ≤ b ∧ b ≤ 17 ∧ usageOf (get_board_usage_count existing) b = 0) ∧
    (∀ b : Int, b ∈ boardsWithUsage (get_board_usage_count existing) 1 ↔
      1 ≤ b ∧ b ≤ 17 ∧ usageOf (get_board_usage_count existing) b = 1) ∧
    ((boardsWithUsage (get_board_usage_count existing) 0).Pairwise (· < ·)) ∧
    ((boardsWithUsage (get_board_usage_count existing) 1).Pairwise (· < ·)) ∧
    (∀ i : Nat, (assign_board_numbers new existing)[i]? =
      ((new.mergeSort roundLE)[i]?).map (fun p =>
        { p with board := assignedBoard existing i })) := by
  have hdef : assign_board_numbers new existing =
      assignLoop (new.mergeSort roundLE)
        (boardsWithUsage (get_board_usage_count existing) 0)
        (boardsWithUsage (get_board_usage_count existing) 1) := by
    unfold assign_board_numbers
    rw [if_neg h]
  refine ⟨?_, ?_, fun b => boardsWithUsage_mem _ _ b,
    fun b => boardsWithUsage_mem _ _ b, boardsWithUsage_sorted _ _,
    boardsWithUsage_sorted _ _, ?_⟩
  · rw [hdef]
    apply assignLoop_pairwise_round
    have hs := List.sorted_mergeSort roundLE_trans roundLE_total new
    exact hs.imp (by intro a b hab; simpa [roundLE] using hab)
  · rw [hdef, assignLoop_length, List.length_mergeSort]
  · intro i
    rw [hdef, assignLoop_getElem?]
    rfl

/-- One pending game sits on board 1; boards 2..17 are empty. -/
def c3Existing : List Pairing := [⟨1, some 1, 10, 11, none, none⟩]

def c3New : List NewPairing := [⟨1, 5, 6, BoardVal.unset⟩]

unseal Rat.add Rat.mul Rat.sub Rat.inv Nat.gcd List.merge List.mergeSort in
/-- Claim C3 counterexample: board 1 has one pending game, so it is the
lowest-numbered board with spare capacity (usage `1 < 2`), yet the single
new pairing is assigned board 2 — the lowest *empty* board — refuting
"assigns each one the lowest-numbered board (1..MAX_BOARDS) that still has
spare capacity". -/
theorem assign_board_lowest_refuted :
    usageOf (get_board_usage_count c3Existing) 1 = 1 ∧
    (1 : Nat) < 2 ∧
    (assign_board_numbers c3New c3Existing).map (fun p => p.board) =
      [BoardVal.num 2] ∧
    BoardVal.num 2 ≠ BoardVal.num 1 := by
  refine ⟨by decide, by decide, by decide, by decide⟩

unseal Rat.add Rat.mul Rat.sub Rat.inv Nat.gcd List.merge List.mergeSort in
theorem assign_board_numbers_assignment_witness :
    ((assign_board_numbers c3New c3Existing).Pairwise fun a b => a.round ≤ b.round) ∧
    (assign_board_numbers c3New c3Existing).length = c3New.length ∧
    (∀ b : Int, b ∈ boardsWithUsage (get_board_usage_count c3Existing) 0 ↔
      1 ≤ b ∧ b ≤ 17 ∧ usageOf (get_board_usage_count c3Existing) b = 0) ∧
    (∀ b : Int, b ∈ boardsWithUsage (get_board_usage_count c3Existing) 1 ↔
      1 ≤ b ∧ b ≤ 17 ∧ usageOf (get_board_usage_count c3Existing) b = 1) ∧
    ((boardsWithUsage (get_board_usage_count c3Existing) 0).Pairwise (· < ·)) ∧
    ((boardsWithUsage (get_board_usage_count c3Existing) 1).Pairwise (· < ·)) ∧
    (∀ i : Nat, (assign_board_numbers c3New c3Existing)[i]? =
      ((c3New.mergeSort roundLE)[i]?).map (fun p =>
        { p with board := assignedBoard c3Existing i })) :=
  assign_board_numbers_assignment c3New c3Existing (by decide)

/-- Claim C10: for a non-empty batch, `assign_board_numbers` returns
exactly the input pairings as a multiset — reordered by ascending round —
with every record unchanged except its `Board` field, which is set on
every output record to an integer in `1..17` or the sentinel `"?"`. -/
theorem assign_board_numbers_frame (new : List NewPairing)
    (existing : List Pairing) (h : new ≠ []) :
    List.Perm ((assign_board_numbers new existing).map stripBoard)
      (new.map stripBoard) ∧
    ((assign_board_numbers new existing).Pairwise fun a b => a.round ≤ b.round) ∧
    (∀ p ∈ assign_board_numbers new existing,
      (∃ n : Int, 1 ≤ n ∧ n ≤ 17 ∧ p.board = BoardVal.num n) ∨
        p.board = BoardVal.question) := by
  have hdef : assign_board_numbers new existing =
      assignLoop (new.mergeSort roundLE)
        (boardsWithUsage (get_board_usage_count existing) 0)
        (boardsWithUsage (get_board_usage_count existing) 1) := by
    unfold assign_board_numbers
    rw [if_neg h]
  refine ⟨?_, ?_, ?_⟩
  · rw [hdef, assignLoop_map_strip]
    exact (List.mergeSort_perm new roundLE).map stripBoard
  · rw [hdef]
    apply assignLoop_pairwise_round
    have hs := List.sorted_mergeSort roundLE_trans roundLE_total new
    exact hs.imp (by intro a b hab; simpa [roundLE] using hab)
  · intro p hp
    rw [hdef] at hp
    rcases assignLoop_boards _ _ _ p hp with h' | ⟨n, hn, h'⟩
    · exact Or.inr h'
    · refine Or.inl ⟨n, ?_, ?_, h'⟩ <;>
      · rcases hn with hn | hn <;>
          have := (boardsWithUsage_mem (get_board_usage_count existing) _ n).mp hn <;>
          omega

def c10New : List NewPairing := [⟨2, 3, 4, BoardVal.unset⟩, ⟨1, 5, 6, BoardVal.unset⟩]

unseal Rat.add Rat.mul Rat.sub Rat.inv Nat.gcd List.merge List.mergeSort in
theorem assign_board_numbers_frame_witness :
    List.Perm ((assign_board_numbers c10New []).map stripBoard)
      (c10New.map stripBoard) ∧
    ((assign_board_numbers c10New []).Pairwise fun a b => a.round ≤ b.round) ∧
    (∀ p ∈ assign_board_numbers c10New [],
      (∃ n : Int, 1 ≤ n ∧ n ≤ 17 ∧ p.board = BoardVal.num n) ∨
        p.board = BoardVal.question) :=
  assign_board_numbers_frame c10New [] (by decide)

/-! ### Claim C4: the greedy fallback -/

theorem greedyScan_mem : ∀ (l : List (Int × Int × ℚ)) (matched : List Int),
    ∀ uv ∈ greedyScan l matched, ∃ w, (uv.1, uv.2, w) ∈ l := by
  intro l
  induction l with
  | nil => intro matched uv huv; simp [greedyScan] at huv
  | cons e rest ih =>
    intro matched uv huv
    obtain ⟨u, v, w⟩ := e
    unfold greedyScan at huv
    split_ifs at huv with hfree
    · rcases List.mem_cons.mp huv with h | h
      · subst h
        exact ⟨w, by simp⟩
      · obtain ⟨w', hw'⟩ := ih _ uv h
        exact ⟨w', by simp [hw']⟩
    · obtain ⟨w', hw'⟩ := ih _ uv huv
      exact ⟨w', by simp [hw']⟩

theorem greedyScan_avoid : ∀ (l : List (Int × Int × ℚ)) (matched : List Int),
    ∀ uv ∈ greedyScan l matched, uv.1 ∉ matched ∧ uv.2 ∉ matched := by
  intro l
  induction l with
  | nil => intro matched uv huv; simp [greedyScan] at huv
  | cons e rest ih =>
    intro matched uv huv
    obtain ⟨u, v, w⟩ := e
    unfold greedyScan at huv
    split_ifs at huv with hfree
    · rcases List.mem_cons.mp huv with h | h
      · subst h
        exact hfree
      · have := ih _ uv h
        constructor
        · exact fun hm => this.1 (by simp [hm])
        · exact fun hm => this.2 (by simp [hm])
    · exact ih _ uv huv

theorem greedyScan_pairwise : ∀ (l : List (Int × Int × ℚ)) (matched : List Int),
    (greedyScan l matched).Pairwise fun e f =>
      e.1 ≠ f.1 ∧ e.1 ≠ f.2 ∧ e.2 ≠ f.1 ∧ e.2 ≠ f.2 := by
  intro l
  induction l with
  | nil => intro matched; simp [greedyScan]
  | cons e rest ih =>
    intro matched
    obtain ⟨u, v, w⟩ := e
    unfold greedyScan
    split_ifs with hfree
    · refine List.pairwise_cons.mpr ⟨?_, ih _⟩
      intro f hf
      have havoid := greedyScan_avoid rest (u :: v :: matched) f hf
      refine ⟨?_, ?_, ?_, ?_⟩
      · exact fun hh => havoid.1 (by simp [hh.symm])
      · exact fun hh => havoid.2 (by simp [hh.symm])
      · exact fun hh => havoid.1 (by simp [hh.symm])
      · exact fun hh => havoid.2 (by simp [hh.symm])
    · exact ih _

theorem weightGE_pairwise_of_const (edges : List (Int × Int × ℚ)) (c : ℚ)
    (h : ∀ e ∈ edges, e.2.2 = c) : edges.Pairwise fun e f => weightGE e f := by
  induction edges with
  | nil => simp
  | cons e rest ih =>
    refine List.pairwise_cons.mpr ⟨?_, ih (fun f hf => h f (by simp [hf]))⟩
    intro f hf
    have he : e.2.2 = c := h e (by simp)
    have hfc : f.2.2 = c := h f (by simp [hf])
    simp [weightGE, he, hfc]

/-- Claim C4 (amended): `greedy_matching` stably sorts the edge list by
weight descending — weight ties keep the graph's edge-insertion order, not
the ascending-id-pair order the spec claims — then repeatedly selects the
highest-weight edge with both endpoints unmatched.  It is a pure function
(equal inputs give equal outputs), every selected pair is an input edge, no
two selected pairs share an endpoint, and on an all-equal-weight list the
edges are considered exactly in input order. -/
theorem greedy_matching_props (edges : List (Int × Int × ℚ)) :
    (∀ uv ∈ greedy_matching edges, ∃ w, (uv.1, uv.2, w) ∈ edges) ∧
    ((greedy_matching edges).Pairwise fun e f =>
      e.1 ≠ f.1 ∧ e.1 ≠ f.2 ∧ e.2 ≠ f.1 ∧ e.2 ≠ f.2) ∧
    (∀ c : ℚ, (∀ e ∈ edges, e.2.2 = c) →
      greedy_matching edges = greedyScan edges []) := by
  refine ⟨?_, greedyScan_pairwise _ _, ?_⟩
  · intro uv huv
    obtain ⟨w, hw⟩ := greedyScan_mem _ _ uv huv
    exact ⟨w, (List.mem_mergeSort).mp hw⟩
  · intro c hc
    unfold greedy_matching
    rw [List.mergeSort_of_sorted (weightGE_pairwise_of_const edges c hc)]

/-- Modelled from the spec: the order the claim asserts for the greedy
fallback — weight descending, ties broken deterministically by ascending
id pair — which `main.py` does not implement (its `list.sort` is stable on
the input order instead). -/
def specOrderGE (e f : Int × Int × ℚ) : Bool :=
  decide (f.2.2 < e.2.2 ∨ (e.2.2 = f.2.2 ∧ (e.1 < f.1 ∨ (e.1 = f.1 ∧ e.2.1 ≤ f.2.1))))

/-- Modelled from the spec: greedy matching over the claimed edge order. -/
def greedy_matching_specOrder (edges : List (Int × Int × ℚ)) : List (Int × Int) :=
  greedyScan (edges.mergeSort specOrderGE) []

/-- Two edges of equal weight, listed with the id-wise larger pair first. -/
def c4Edges : List (Int × Int × ℚ) := [(1, 4, 10), (1, 2, 10)]

unseal Rat.add Rat.mul Rat.sub Rat.inv Nat.gcd List.merge List.mergeSort in
/-- Claim C4 counterexample: on two equal-weight edges `(1,4)` and `(1,2)`
in that input order, `greedy_matching` keeps the input order on the tie and
matches `(1,4)`, whereas the claimed ascending-id-pair tie-break would
consider `(1,2)` first and match it — the two disagree, refuting the
claimed sort order. -/
theorem greedy_tiebreak_refuted :
    greedy_matching c4Edges = [(1, 4)] ∧
    greedy_matching_specOrder c4Edges = [(1, 2)] ∧
    ([(1, 4)] : List (Int × Int)) ≠ [(1, 2)] := by
  refine ⟨by decide, by decide, by decide⟩

unseal Rat.add Rat.mul Rat.sub Rat.inv Nat.gcd List.merge List.mergeSort in
theorem greedy_matching_props_witness :
    (∀ uv ∈ greedy_matching c4Edges, ∃ w, (uv.1, uv.2, w) ∈ c4Edges) ∧
    greedy_matching c4Edges = greedyScan c4Edges [] :=
  ⟨(greedy_matching_props c4Edges).1,
   (greedy_matching_props c4Edges).2.2 10 (by decide)⟩

/-! ### Claim C6: standings sort order and ranks -/

theorem numberRows_getElem? (l : List StandingRow) (start i : Nat) :
    (numberRows start l)[i]? =
      (l[i]?).map (fun r => { r with pos := start + i + 1 }) := by
  induction l generalizing start i with
  | nil => simp [numberRows]
  | cons r rs ih =>
    rcases i with _ | i
    · simp [numberRows]
    · simp only [numberRows, List.getElem?_cons_succ, ih]
      have h : start + 1 + i + 1 = start + (i + 1) + 1 := by omega
      rw [h]

theorem numberTb_getElem? (l : List TStanding) (start i : Nat) :
    (numberTb start l)[i]? =
      (l[i]?).map (fun r => { r with rank := start + i + 1 }) := by
  induction l generalizing start i with
  | nil => simp [numberTb]
  | cons r rs ih =>
    rcases i with _ | i
    · simp [numberTb]
    · simp only [numberTb, List.getElem?_cons_succ, ih]
      have h : start + 1 + i + 1 = start + (i + 1) + 1 := by omega
      rw [h]

theorem lex2LE_trans {x y z : ℚ × ℚ} (h1 : lex2LE x y) (h2 : lex2LE y z) :
    lex2LE x z := by
  rcases h1 with h1 | ⟨e1, le1⟩ <;> rcases h2 with h2 | ⟨e2, le2⟩
  · exact Or.inl (lt_trans h1 h2)
  · exact Or.inl (e2 ▸ h1)
  · exact Or.inl (e1 ▸ h2)
  · exact Or.inr ⟨e1.trans e2, le_trans le1 le2⟩

theorem lex2LE_total (x y : ℚ × ℚ) : lex2LE x y ∨ lex2LE y x := by
  rcases lt_trichotomy x.1 y.1 with h | h | h
  · exact Or.inl (Or.inl h)
  · rcases le_total x.2 y.2 with h2 | h2
    · exact Or.inl (Or.inr ⟨h, h2⟩)
    · exact Or.inr (Or.inr ⟨h.symm, h2⟩)
  · exact Or.inr (Or.inl h)

theorem lex4LE_trans {x y z : ℚ × ℚ × ℚ × ℚ} (h1 : lex4LE x y) (h2 : lex4LE y z) :
    lex4LE x z := by
  unfold lex4LE at *
  rcases h1 with h1 | ⟨e1, h1⟩ <;> rcases h2 with h2 | ⟨e2, h2⟩
  · exact Or.inl (lt_trans h1 h2)
  · exact Or.inl (e2 ▸ h1)
  · exact Or.inl (e1 ▸ h2)
  · refine Or.inr ⟨e1.trans e2, ?_⟩
    rcases h1 with h1 | ⟨f1, h1⟩ <;> rcases h2 with h2 | ⟨f2, h2⟩
    · exact Or.inl (lt_trans h1 h2)
    · exact Or.inl (f2 ▸ h1)
    · exact Or.inl (f1 ▸ h2)
    · refine Or.inr ⟨f1.trans f2, ?_⟩
      rcases h1 with h1 | ⟨g1, h1⟩ <;> rcases h2 with h2 | ⟨g2, h2⟩
      · exact Or.inl (lt_trans h1 h2)
      · exact Or.inl (g2 ▸ h1)
      · exact Or.inl (g1 ▸ h2)
      · exact Or.inr ⟨g1.trans g2, le_trans h1 h2⟩

theorem lex4LE_total (x y : ℚ × ℚ × ℚ × ℚ) : lex4LE x y ∨ lex4LE y x := by
  unfold lex4LE
  rcases lt_trichotomy x.1 y.1 with h | h | h
  · exact Or.inl (Or.inl h)
  · rcases lt_trichotomy x.2.1 y.2.1 with h2 | h2 | h2
    · exact Or.inl (Or.inr ⟨h, Or.inl h2⟩)
    · rcases lt_trichotomy x.2.2.1 y.2.2.1 with h3 | h3 | h3
      · exact Or.inl (Or.inr ⟨h, Or.inr ⟨h2, Or.inl h3⟩⟩)
      · rcases le_total x.2.2.2 y.2.2.2 with h4 | h4
        · exact Or.inl (Or.inr ⟨h, Or.inr ⟨h2, Or.inr ⟨h3, h4⟩⟩⟩)
        · exact Or.inr (Or.inr ⟨h.symm, Or.inr ⟨h2.symm, Or.inr ⟨h3.symm, h4⟩⟩⟩)
      · exact Or.inr (Or.inr ⟨h.symm, Or.inr ⟨h2.symm, Or.inl h3⟩⟩)
    · exact Or.inr (Or.inr ⟨h.symm, Or.inl h2⟩)
  · exact Or.inr (Or.inl h)

theorem standingGE_trans : ∀ a b c : StandingRow,
    standingGE a b → standingGE b c → standingGE a c := by
  intro a b c hab hbc
  simp only [standingGE, decide_eq_true_eq] at *
  exact lex2LE_trans hbc hab

theorem standingGE_total : ∀ a b : StandingRow, standingGE a b || standingGE b a := by
  intro a b
  simp only [standingGE, Bool.or_eq_true, decide_eq_true_eq]
  exact lex2LE_total (b.pt, b.bucT) (a.pt, a.bucT)

theorem tStandingGE_trans : ∀ a b c : TStanding,
    tStandingGE a b → tStandingGE b c → tStandingGE a c := by
  intro a b c hab hbc
  simp only [tStandingGE, decide_eq_true_eq] at *
  exact lex4LE_trans hbc hab

theorem tStandingGE_total : ∀ a b : TStanding, tStandingGE a b || tStandingGE b a := by
  intro a b
  simp only [tStandingGE, Bool.or_eq_true, decide_eq_true_eq]
  exact lex4LE_total (tKey b) (tKey a)

/-- Claim C6 (amended): both standings calculators assign rank as the
1-based position after a descending lexicographic sort, so with identical
points a strictly higher tie-break on the *first differing criterion*
gives a strictly smaller rank: in `main.py`'s 2-criterion variant a higher
BucT wins outright, while in `calc_tiebreaker.py`'s 4-criterion variant DE
is compared before Buc1 and BucT, so on tied points a higher DE wins —
there a higher BucT alone does not guarantee a better rank. -/
theorem standings_rank_monotone :
    (∀ (m : SMap) (i j : Nat) (ri rj : StandingRow),
      (calculate_standings m)[i]? = some ri →
      (calculate_standings m)[j]? = some rj →
      ri.pt = rj.pt → rj.bucT < ri.bucT → ri.pos < rj.pos) ∧
    (∀ (pf : String → Option ℚ) (rows : List TRow) (i j : Nat)
        (ri rj : TStanding),
      (Tb.calculate_standings pf rows)[i]? = some ri →
      (Tb.calculate_standings pf rows)[j]? = some rj →
      ri.points = rj.points → rj.de < ri.de → ri.rank < rj.rank) := by
  constructor
  · intro m i j ri rj hi hj hpt hbuc
    unfold calculate_standings at hi hj
    simp only [numberRows_getElem?, Nat.zero_add, Option.map_eq_some'] at hi hj
    obtain ⟨si, hsi, rfl⟩ := hi
    obtain ⟨sj, hsj, rfl⟩ := hj
    simp only at hpt hbuc ⊢
    have hsorted := List.sorted_mergeSort standingGE_trans standingGE_total
      (m.map (fun kv =>
        { playerName := kv.2.name, pt := kv.2.points,
          bucT := kv.2.opponentScores.sum, de := 0, ber := 0, pos := 0 : StandingRow }))
    rw [List.pairwise_iff_getElem] at hsorted
    obtain ⟨hilen, hig⟩ := List.getElem?_eq_some_iff.mp hsi
    obtain ⟨hjlen, hjg⟩ := List.getElem?_eq_some_iff.mp hsj
    rcases lt_trichotomy i j with hij | hij | hij
    · omega
    · subst hij
      rw [hig] at hjg
      rw [hjg] at hbuc
      exact absurd hbuc (lt_irrefl _)
    · exfalso
      have := hsorted j i hjlen hilen hij
      rw [hig, hjg] at this
      simp only [standingGE, decide_eq_true_eq] at this
      rcases this with h | ⟨he, hle⟩
      · rw [hpt] at h
        exact absurd h (lt_irrefl _)
      · exact absurd (lt_of_lt_of_le hbuc hle) (lt_irrefl _)
  · intro pf rows i j ri rj hi hj hpt hde
    unfold Tb.calculate_standings at hi hj
    simp only [numberTb_getElem?, Nat.zero_add, Option.map_eq_some'] at hi hj
    obtain ⟨si, hsi, rfl⟩ := hi
    obtain ⟨sj, hsj, rfl⟩ := hj
    simp only at hpt hde ⊢
    have hsorted := List.sorted_mergeSort tStandingGE_trans tStandingGE_total
      ((buildPlayers pf rows).map (fun kv =>
        { rank := 0, name := kv.1, points := kv.2.points,
          de := deOf (buildPlayers pf rows) kv.2,
          buc1 := buc1Of (buildPlayers pf rows) kv.2,
          bucT := bucTOf (buildPlayers pf rows) kv.2 : TStanding }))
    rw [List.pairwise_iff_getElem] at hsorted
    obtain ⟨hilen, hig⟩ := List.getElem?_eq_some_iff.mp hsi
    obtain ⟨hjlen, hjg⟩ := List.getElem?_eq_some_iff.mp hsj
    rcases lt_trichotomy i j with hij | hij | hij
    · omega
    · subst hij
      rw [hig] at hjg
      rw [hjg] at hde
      exact absurd hde (lt_irrefl _)
    · exfalso
      have := hsorted j i hjlen hilen hij
      rw [hig, hjg] at this
      simp only [tStandingGE, decide_eq_true_eq, tKey, lex4LE] at this
      rcases this with h | ⟨he, hrest⟩
      · rw [hpt] at h
        exact absurd h (lt_irrefl _)
      · rcases hrest with h | ⟨he2, _⟩
        · exact absurd (lt_trans hde h) (lt_irrefl _)
        · rw [he2] at hde
          exact absurd hde (lt_irrefl _)

def c6Map : SMap :=
  [(1, ⟨"X", 1, 0, none, [], [], [1, 1], false⟩),
   (2, ⟨"Y", 1, 0, none, [], [], [1], false⟩)]

unseal Rat.add Rat.mul Rat.sub Rat.inv Nat.gcd List.merge List.mergeSort in
theorem standings_rank_monotone_witness :
    (⟨"X", 1, 2, 0, 0, 1⟩ : StandingRow).pos < (⟨"Y", 1, 1, 0, 0, 2⟩ : StandingRow).pos :=
  standings_rank_monotone.1 c6Map 0 1 ⟨"X", 1, 2, 0, 0, 1⟩ ⟨"Y", 1, 1, 0, 0, 2⟩
    (by decide) (by decide) (by decide) (by decide)

/-- Four games: B beats A, A beats X... in fact X beats Z and W after
losing to A, leaving A and B tied on 1.0 with `BucT A = 3 > BucT B = 1`
but `DE B = 1 > DE A = 0`. -/
def c6Rows : List TRow :=
  [⟨"B", "A", "1", "0"⟩, ⟨"A", "X", "1", "0"⟩, ⟨"X", "Z", "1", "0"⟩,
   ⟨"X", "W", "1", "0"⟩]

set_option maxHeartbeats 1000000 in
unseal Rat.add Rat.mul Rat.sub Rat.inv Nat.gcd List.merge List.mergeSort in
/-- Claim C6 counterexample: in the 4-criterion calculator A and B finish
with identical points; A has the strictly higher BucT (3 vs 1) yet receives
the strictly larger rank number (3 vs 2), because B's higher Direct
Encounter is compared first — refuting "for any two competitors with
identical points, the one with the strictly higher BucT receives a strictly
smaller rank number". -/
theorem standings_bucT_rank_refuted :
    (Tb.calculate_standings pfNone c6Rows)[1]? = some ⟨2, "B", 1, 1, 0, 1⟩ ∧
    (Tb.calculate_standings pfNone c6Rows)[2]? = some ⟨3, "A", 1, 0, 2, 3⟩ ∧
    ((1 : ℚ) = 1) ∧ ((1 : ℚ) < 3) ∧ ((2 : Nat) < 3) := by
  refine ⟨by decide, by decide, by decide, by decide, by decide⟩

/-! ### Claims C2 and C8: pairing-graph structure -/

theorem listPairs_mem {α : Type} {l : List α} {ab : α × α}
    (h : ab ∈ listPairs l) : ab.1 ∈ l ∧ ab.2 ∈ l := by
  induction l with
  | nil => simp [listPairs] at h
  | cons x xs ih =>
    unfold listPairs at h
    rcases List.mem_append.mp h with h' | h'
    · obtain ⟨y, hy, rfl⟩ := List.mem_map.mp h'
      exact ⟨by simp, by simp [hy]⟩
    · have := ih h'
      exact ⟨by simp [this.1], by simp [this.2]⟩

theorem listPairs_ne {α : Type} {l : List α} (hl : l.Nodup) {ab : α × α}
    (h : ab ∈ listPairs l) : ab.1 ≠ ab.2 := by
  induction l with
  | nil => simp [listPairs] at h
  | cons x xs ih =>
    unfold listPairs at h
    rcases List.mem_append.mp h with h' | h'
    · obtain ⟨y, hy, rfl⟩ := List.mem_map.mp h'
      intro heq
      simp only at heq
      subst heq
      exact (List.nodup_cons.mp hl).1 hy
    · exact ih (List.nodup_cons.mp hl).2 h'

theorem addToGroups_buckets (ps : SMap) (gs : List ((Nat × ℚ) × List Int))
    (k : Nat × ℚ) (pid : Int)
    (hgs : ∀ g ∈ gs, ∀ x ∈ g.2, bucketOf ps x = g.1)
    (hpid : bucketOf ps pid = k) :
    ∀ g ∈ addToGroups gs k pid, ∀ x ∈ g.2, bucketOf ps x = g.1 := by
  induction gs with
  | nil =>
    intro g hg x hx
    simp only [addToGroups, List.mem_singleton] at hg
    subst hg
    simp only [List.mem_singleton] at hx
    subst hx
    exact hpid
  | cons g0 gs ih =>
    intro g hg x hx
    unfold addToGroups at hg
    split_ifs at hg with hk
    · rcases List.mem_cons.mp hg with h' | h'
      · subst h'
        simp only [List.mem_append, List.mem_singleton] at hx
        rcases hx with hx | hx
        · exact hgs g0 (by simp) x hx
        · subst hx
          rw [hpid, ← hk]
      · exact hgs g (by simp [h']) x hx
    · rcases List.mem_cons.mp hg with h' | h'
      · subst h'
        exact hgs g (by simp) x hx
      · exact ih (fun g' hg' => hgs g' (by simp [hg'])) g h' x hx

theorem buildGroups_buckets (waiting : List Int) (ps : SMap) :
    ∀ g ∈ buildGroups waiting ps, ∀ x ∈ g.2, bucketOf ps x = g.1 := by
  have : ∀ (l : List Int) (gs : List ((Nat × ℚ) × List Int)),
      (∀ g ∈ gs, ∀ x ∈ g.2, bucketOf ps x = g.1) →
      ∀ g ∈ l.foldl (fun gs pid => addToGroups gs (bucketOf ps pid) pid) gs,
        ∀ x ∈ g.2, bucketOf ps x = g.1 := by
    intro l
    induction l with
    | nil => intro gs h; exact h
    | cons pid l ih =>
      intro gs h
      exact ih _ (addToGroups_buckets ps gs _ pid h rfl)
  exact this waiting [] (by simp)

theorem addToGroups_keys_mem (gs : List ((Nat × ℚ) × List Int)) (k : Nat × ℚ)
    (pid : Int) (k' : Nat × ℚ) :
    k' ∈ (addToGroups gs k pid).map (fun g => g.1) ↔
      k' ∈ gs.map (fun g => g.1) ∨ k' = k := by
  induction gs with
  | nil => simp [addToGroups]
  | cons g0 gs ih =>
    unfold addToGroups
    split_ifs with hk
    · subst hk
      simp only [List.map_cons, List.mem_cons]
      tauto
    · simp only [List.map_cons, List.mem_cons, ih]
      tauto

theorem addToGroups_keys_nodup (gs : List ((Nat × ℚ) × List Int)) (k : Nat × ℚ)
    (pid : Int) (h : (gs.map (fun g => g.1)).Nodup) :
    ((addToGroups gs k pid).map (fun g => g.1)).Nodup := by
  induction gs with
  | nil => simp [addToGroups]
  | cons g0 gs ih =>
    unfold addToGroups
    rw [List.map_cons] at h
    obtain ⟨h0, htail⟩ := List.nodup_cons.mp h
    split_ifs with hk
    · simp only [List.map_cons]
      exact List.nodup_cons.mpr ⟨h0, htail⟩
    · simp only [List.map_cons, List.nodup_cons]
      refine ⟨?_, ih htail⟩
      rw [addToGroups_keys_mem]
      rintro (hmem | rfl)
      · exact h0 hmem
      · exact hk rfl

theorem buildGroups_keys_nodup (waiting : List Int) (ps : SMap) :
    ((buildGroups waiting ps).map (fun g => g.1)).Nodup := by
  have : ∀ (l : List Int) (gs : List ((Nat × ℚ) × List Int)),
      (gs.map (fun g => g.1)).Nodup →
      ((l.foldl (fun gs pid => addToGroups gs (bucketOf ps pid) pid) gs).map
        (fun g => g.1)).Nodup := by
    intro l
    induction l with
    | nil => intro gs h; exact h
    | cons pid l ih =>
      intro gs h
      exact ih _ (addToGroups_keys_nodup gs _ pid h)
  exact this waiting [] (by simp)

theorem addToGroups_flat (gs : List ((Nat × ℚ) × List Int)) (k : Nat × ℚ)
    (pid : Int) :
    List.Perm ((addToGroups gs k pid).flatMap (fun g => g.2))
      (pid :: gs.flatMap (fun g => g.2)) := by
  induction gs with
  | nil => simp [addToGroups]
  | cons g0 gs ih =>
    unfold addToGroups
    split_ifs with hk
    · simp only [List.flatMap_cons, List.append_assoc, List.singleton_append]
      exact List.perm_middle
    · simp only [List.flatMap_cons]
      exact (ih.append_left g0.2).trans List.perm_middle

theorem buildGroups_flat (waiting : List Int) (ps : SMap) :
    List.Perm ((buildGroups waiting ps).flatMap (fun g => g.2)) waiting := by
  have key : ∀ (l : List Int) (gs : List ((Nat × ℚ) × List Int)),
      List.Perm
        ((l.foldl (fun gs pid => addToGroups gs (bucketOf ps pid) pid) gs).flatMap
          (fun g => g.2))
        (l ++ gs.flatMap (fun g => g.2)) := by
    intro l
    induction l with
    | nil => intro gs; simp
    | cons pid l ih =>
      intro gs
      refine ((ih _).trans ?_)
      refine (List.Perm.append_left l (addToGroups_flat gs _ pid)).trans ?_
      exact List.perm_middle
  simpa using key waiting []

theorem mem_group_sublist_flat (gs : List ((Nat × ℚ) × List Int))
    (g : (Nat × ℚ) × List Int) (hg : g ∈ gs) :
    g.2.Sublist (gs.flatMap (fun g => g.2)) := by
  induction gs with
  | nil => simp at hg
  | cons g0 gs ih =>
    rcases List.mem_cons.mp hg with h | h
    · subst h
      simp only [List.flatMap_cons]
      exact List.sublist_append_left _ _
    · simp only [List.flatMap_cons]
      exact (ih h).trans (List.sublist_append_right _ _)

theorem singletonPlayers_sublist_flat (gs : List ((Nat × ℚ) × List Int)) :
    (singletonPlayers gs).Sublist (gs.flatMap (fun g => g.2)) := by
  induction gs with
  | nil => simp [singletonPlayers]
  | cons g0 gs ih =>
    unfold singletonPlayers
    simp only [List.filterMap_cons, List.flatMap_cons]
    rcases hm : (match g0.2 with | [x] => some x | _ => none) with _ | x
    · simp only [hm]
      exact ih.trans (List.sublist_append_right _ _)
    · simp only [hm]
      have hx : g0.2 = [x] := by
        rcases g0 with ⟨k0, l0⟩
        rcases l0 with _ | ⟨a, _ | ⟨b, t⟩⟩ <;> simp_all
      rw [hx]
      exact (ih.cons₂ x)

theorem singletonPlayers_mem (gs : List ((Nat × ℚ) × List Int)) (a : Int)
    (h : a ∈ singletonPlayers gs) : ∃ k, (k, [a]) ∈ gs := by
  unfold singletonPlayers at h
  obtain ⟨g, hg, hmatch⟩ := List.mem_filterMap.mp h
  have hx : g.2 = [a] := by
    rcases g with ⟨k0, l0⟩
    rcases l0 with _ | ⟨x, _ | ⟨y, t⟩⟩ <;> simp_all
  exact ⟨g.1, by rwa [← hx, Prod.mk.eta]⟩

/-- The group list looked up at a key, `groups[key]` with default `[]`. -/
def groupFor (gs : List ((Nat × ℚ) × List Int)) (k : Nat × ℚ) : List Int :=
  ((gs.find? (fun g => g.1 = k)).map (fun g => g.2)).getD []

theorem groupFor_eq_of_mem (gs : List ((Nat × ℚ) × List Int))
    (hnd : (gs.map (fun g => g.1)).Nodup) (k : Nat × ℚ) (gp : List Int)
    (h : (k, gp) ∈ gs) : groupFor gs k = gp := by
  induction gs with
  | nil => simp at h
  | cons g0 gs ih =>
    rw [List.map_cons] at hnd
    obtain ⟨h0, htail⟩ := List.nodup_cons.mp hnd
    rcases List.mem_cons.mp h with h' | h'
    · subst h'
      simp [groupFor, List.find?]
    · have hk0 : ¬ g0.1 = k := by
        intro hk
        exact h0 (by
          rw [hk]
          exact List.mem_map.mpr ⟨(k, gp), h', rfl⟩)
      unfold groupFor
      rw [List.find?_cons_of_neg _ (by simpa using hk0)]
      exact ih htail h'

theorem can_pair_no_rematch {ps : SMap} {a b : Int} {sg : Bool}
    (h : can_pair ps a b sg = true) : b ∉ (getPS ps a).opponents := by
  intro hmem
  unfold can_pair at h
  simp only at h
  rw [if_pos hmem] at h
  exact Bool.false_ne_true h

theorem can_pair_games_close {ps : SMap} {a b : Int}
    (h : can_pair ps a b false = true) :
    (((getPS ps a).gamesPlayed : Int) - ((getPS ps b).gamesPlayed : Int)).natAbs ≤ 1 := by
  by_contra hgt
  unfold can_pair at h
  simp only at h
  by_cases hmem : b ∈ (getPS ps a).opponents
  · rw [if_pos hmem] at h
    exact Bool.false_ne_true h
  · rw [if_neg hmem] at h
    rw [if_pos (by simp only [Bool.not_false, Bool.true_and,
      decide_eq_true_eq]; omega)] at h
    exact Bool.false_ne_true h

theorem mem_graph_cases {waiting : List Int} {ps : SMap} {a b : Int} {w : ℚ}
    (h : (a, b, w) ∈ create_pairing_graph waiting ps) :
    (∃ g ∈ buildGroups waiting ps, (a, b) ∈ listPairs g.2 ∧
      can_pair ps a b true = true) ∨
    ((a, b) ∈ listPairs (singletonPlayers (buildGroups waiting ps)) ∧
      can_pair ps a b false = true) := by
  unfold create_pairing_graph at h
  simp only at h
  rcases List.mem_append.mp h with h | h
  · left
    unfold sameGroupEdges at h
    obtain ⟨g, hg, hab⟩ := List.mem_flatMap.mp h
    obtain ⟨ab, hab', heq⟩ := List.mem_filterMap.mp hab
    rw [Option.ite_none_right_eq_some] at heq
    obtain ⟨hcan, heq2⟩ := heq
    simp only [Option.some.injEq, Prod.mk.injEq] at heq2
    obtain ⟨h1, h2, h3⟩ := heq2
    have hab2 : ab = (a, b) := Prod.ext h1 h2
    subst hab2
    exact ⟨g, hg, hab', hcan⟩
  · right
    unfold crossGroupEdges at h
    simp only at h
    split_ifs at h with hsp
    · obtain ⟨ab, hab', heq⟩ := List.mem_filterMap.mp h
      rw [Option.ite_none_right_eq_some] at heq
      obtain ⟨hcan, heq2⟩ := heq
      simp only [Option.some.injEq, Prod.mk.injEq] at heq2
      obtain ⟨h1, h2, h3⟩ := heq2
      have hab2 : ab = (a, b) := Prod.ext h1 h2
      subst hab2
      exact ⟨hab', hcan⟩
    · simp at h

/-- Claim C8: every cross-bucket edge of `create_pairing_graph` joins two
players that are each the sole member of their `(gamesPlayed, points)`
bucket, and such cross-bucket candidates additionally satisfy the
`can_pair` restriction `|Δ gamesPlayed| ≤ 1` — an eligibility restriction
beyond the singleton-rescue and weight-penalty rules. -/
theorem cross_bucket_edges_only_singletons (waiting : List Int) (ps : SMap)
    (a b : Int) (w : ℚ)
    (he : (a, b, w) ∈ create_pairing_graph waiting ps)
    (hb : bucketOf ps a ≠ bucketOf ps b) :
    groupFor (buildGroups waiting ps) (bucketOf ps a) = [a] ∧
    groupFor (buildGroups waiting ps) (bucketOf ps b) = [b] ∧
    (((getPS ps a).gamesPlayed : Int) - ((getPS ps b).gamesPlayed : Int)).natAbs ≤ 1 := by
  rcases mem_graph_cases he with ⟨g, hg, hab, hcan⟩ | ⟨hab, hcan⟩
  · exfalso
    have hmem := listPairs_mem hab
    have h1 := buildGroups_buckets waiting ps g hg a hmem.1
    have h2 := buildGroups_buckets waiting ps g hg b hmem.2
    exact hb (h1.trans h2.symm)
  · have hmem := listPairs_mem hab
    obtain ⟨k1, hk1⟩ := singletonPlayers_mem _ a hmem.1
    obtain ⟨k2, hk2⟩ := singletonPlayers_mem _ b hmem.2
    have hbuc1 : bucketOf ps a = k1 :=
      buildGroups_buckets waiting ps (k1, [a]) hk1 a (by simp)
    have hbuc2 : bucketOf ps b = k2 :=
      buildGroups_buckets waiting ps (k2, [b]) hk2 b (by simp)
    refine ⟨?_, ?_, can_pair_games_close hcan⟩
    · rw [hbuc1]
      exact groupFor_eq_of_mem _ (buildGroups_keys_nodup waiting ps) k1 [a] hk1
    · rw [hbuc2]
      exact groupFor_eq_of_mem _ (buildGroups_keys_nodup waiting ps) k2 [b] hk2

/-- Two singleton buckets whose games counts differ by one. -/
def c8Map : SMap :=
  [(1, ⟨"S", 0, 0, none, [], [], [], false⟩),
   (2, ⟨"T", 0, 1, some Color.White, [Color.White], [3], [1], false⟩)]

unseal Rat.add Rat.mul Rat.sub Rat.inv Nat.gcd in
theorem cross_bucket_edges_only_singletons_witness :
    groupFor (buildGroups (get_waiting_players c8Map) c8Map) (bucketOf c8Map 1) = [1] ∧
    groupFor (buildGroups (get_waiting_players c8Map) c8Map) (bucketOf c8Map 2) = [2] ∧
    (((getPS c8Map 1).gamesPlayed : Int) - ((getPS c8Map 2).gamesPlayed : Int)).natAbs ≤ 1 :=
  cross_bucket_edges_only_singletons (get_waiting_players c8Map) c8Map 1 2
    (calculate_weight c8Map 1 2 false) (by decide) (by decide)

theorem assign_colors_or (ps : SMap) (a b : Int) (coin : Bool) :
    assign_colors ps a b coin = (a, b) ∨ assign_colors ps a b coin = (b, a) := by
  unfold assign_colors
  rcases hca : (getPS ps a).lastColor with _ | ca <;>
    rcases hcb : (getPS ps b).lastColor with _ | cb <;>
    simp only [] <;> split_ifs <;> simp

theorem get_waiting_nodup (ps : SMap)
    (h : (ps.map (fun kv => kv.1)).Nodup) : (get_waiting_players ps).Nodup := by
  unfold get_waiting_players
  exact h.sublist ((List.filter_sublist ps).map (fun kv => kv.1))

theorem graph_edge_ne (waiting : List Int) (ps : SMap) (hnd : waiting.Nodup)
    {a b : Int} {w : ℚ} (he : (a, b, w) ∈ create_pairing_graph waiting ps) :
    a ≠ b := by
  have hflat : ((buildGroups waiting ps).flatMap (fun g => g.2)).Nodup :=
    ((buildGroups_flat waiting ps).nodup_iff).mpr hnd
  rcases mem_graph_cases he with ⟨g, hg, hab, _⟩ | ⟨hab, _⟩
  · have hgnd : g.2.Nodup := hflat.sublist (mem_group_sublist_flat _ g hg)
    exact listPairs_ne hgnd hab
  · have hnd2 : (singletonPlayers (buildGroups waiting ps)).Nodup :=
      hflat.sublist (singletonPlayers_sublist_flat _)
    exact listPairs_ne hnd2 hab

/-- Claim C2: for every player-state map with unique keys and the data
model's mutual `opponents` sets, and any sound matcher (each returned pair
is an edge of the graph in some orientation — true of
`nx.max_weight_matching` and of `greedy_matching`), every pairing returned
by `generate_pairings` pairs two distinct competitor ids and neither
competitor is a member of the other's `opponents` set. -/
theorem generate_pairings_no_self_no_rematch (ps : SMap)
    (matcher : List (Int × Int × ℚ) → List (Int × Int))
    (coin : Int → Int → Bool)
    (hkeys : (ps.map (fun kv => kv.1)).Nodup)
    (hsym : ∀ a b : Int, b ∈ (getPS ps a).opponents → a ∈ (getPS ps b).opponents)
    (hmatch : ∀ (E : List (Int × Int × ℚ)) (uv : Int × Int), uv ∈ matcher E →
      (∃ w, (uv.1, uv.2, w) ∈ E) ∨ (∃ w, (uv.2, uv.1, w) ∈ E)) :
    ∀ p ∈ generate_pairings ps matcher coin,
      p.whitePlayer ≠ p.blackPlayer ∧
      p.blackPlayer ∉ (getPS ps p.whitePlayer).opponents ∧
      p.whitePlayer ∉ (getPS ps p.blackPlayer).opponents := by
  intro p hp
  unfold generate_pairings at hp
  simp only at hp
  split_ifs at hp with h1 h2
  · simp at hp
  · simp at hp
  · obtain ⟨uv, huv, hpv⟩ := List.mem_map.mp hp
    have hnd : (get_waiting_players ps).Nodup := get_waiting_nodup ps hkeys
    -- The matched pair is an edge of the graph in one orientation
    have hedge : ∃ u v w, ((u, v, w) ∈ create_pairing_graph (get_waiting_players ps) ps) ∧
        ((uv.1 = u ∧ uv.2 = v) ∨ (uv.1 = v ∧ uv.2 = u)) := by
      rcases hmatch _ uv huv with ⟨w, hw⟩ | ⟨w, hw⟩
      · exact ⟨uv.1, uv.2, w, hw, Or.inl ⟨rfl, rfl⟩⟩
      · exact ⟨uv.2, uv.1, w, hw, Or.inr ⟨rfl, rfl⟩⟩
    obtain ⟨u, v, w, hw, hforms⟩ := hedge
    have hne : u ≠ v := graph_edge_ne _ ps hnd hw
    have hno : v ∉ (getPS ps u).opponents := by
      rcases mem_graph_cases hw with ⟨_, _, _, hcan⟩ | ⟨_, hcan⟩ <;>
        exact can_pair_no_rematch hcan
    have hno' : u ∉ (getPS ps v).opponents := fun hmem => hno (hsym v u hmem)
    -- assign_colors keeps the pair, possibly swapped
    have hcolors := assign_colors_or ps uv.1 uv.2 (coin uv.1 uv.2)
    subst hpv
    unfold pairingOfMatch
    simp only []
    rcases hcolors with hc | hc <;> rw [hc] <;> simp only [] <;>
      rcases hforms with ⟨hu, hv⟩ | ⟨hu, hv⟩ <;> subst hu <;> subst hv
    · exact ⟨hne, hno, hno'⟩
    · exact ⟨hne.symm, hno', hno⟩
    · exact ⟨hne.symm, hno', hno⟩
    · exact ⟨hne, hno, hno'⟩

/-- Two fresh players waiting for round 1. -/
def c2Map : SMap :=
  [(1, ⟨"U", 0, 0, none, [], [], [], false⟩),
   (2, ⟨"V", 0, 0, none, [], [], [], false⟩)]

theorem greedy_matching_sound :
    ∀ (E : List (Int × Int × ℚ)) (uv : Int × Int), uv ∈ greedy_matching E →
      (∃ w, (uv.1, uv.2, w) ∈ E) ∨ (∃ w, (uv.2, uv.1, w) ∈ E) := by
  intro E uv huv
  obtain ⟨w, hw⟩ := greedyScan_mem _ _ uv huv
  exact Or.inl ⟨w, (List.mem_mergeSort).mp hw⟩

unseal Rat.add Rat.mul Rat.sub Rat.inv Nat.gcd List.merge List.mergeSort in
theorem generate_pairings_no_self_no_rematch_witness :
    (⟨1, 1, 2, BoardVal.unset⟩ : NewPairing).whitePlayer ≠
      (⟨1, 1, 2, BoardVal.unset⟩ : NewPairing).blackPlayer ∧
    (⟨1, 1, 2, BoardVal.unset⟩ : NewPairing).blackPlayer ∉
      (getPS c2Map (⟨1, 1, 2, BoardVal.unset⟩ : NewPairing).whitePlayer).opponents ∧
    (⟨1, 1, 2, BoardVal.unset⟩ : NewPairing).whitePlayer ∉
      (getPS c2Map (⟨1, 1, 2, BoardVal.unset⟩ : NewPairing).blackPlayer).opponents :=
  generate_pairings_no_self_no_rematch c2Map greedy_matching (fun _ _ => true)
    (by decide)
    (by
      intro a b hb
      by_cases h1 : (1 : Int) = a <;> by_cases h2 : (2 : Int) = a <;>
        simp [getPS, lookupPS, c2Map, List.find?, h1, h2, initPlayer] at hb)
    greedy_matching_sound
    ⟨1, 1, 2, BoardVal.unset⟩ (by decide)
